import Mathlib

/-!
Shallow embedding of the AMBER prmtop parser
(`src/wrappers/python/simtk/openmm/app/internal/amber_file_parser.py`).

The Python module is written for Python 2: `/` on machine integers is floor
division, `int()` on a float truncates toward zero, and list indexing accepts
negative indices that wrap around from the end of the list.  The embedding
models these semantics explicitly.  Floating point arithmetic is idealised as
exact real (or rational, where the code stays rational) arithmetic; a raised
Python exception is modelled as `Except.error` carrying the message text.
Raw section tokens are modelled after conversion by `int()` / `float()`:
integer-valued sections become `List Int`, float-valued sections become
`List Rat` or `List Real` depending on whether the derivation that consumes
them stays rational.
-/

set_option maxHeartbeats 1000000

/-- Python list read `l[i]`: a nonnegative index is used directly, a negative
index wraps around from the end of the list; an index that is still out of
range yields `none` (Python raises `IndexError`). -/
def pyGet {α : Type} (l : List α) (i : ℤ) : Option α :=
  if 0 ≤ i then l.get? i.toNat
  else if 0 ≤ i + l.length then l.get? (i + l.length).toNat
  else none

/-- Python list read inside code whose failure propagates: out-of-range access
raises `IndexError`. -/
def pyGetE {α : Type} (l : List α) (i : ℤ) : Except String α :=
  match pyGet l i with
  | some a => .ok a
  | none => .error "IndexError: list index out of range"

/-- Python slice index normalisation for `l[a:b]`: negative bounds wrap from
the end (clamped at 0), bounds past the end are clamped to the length. -/
def pySliceIdx (n : ℕ) (i : ℤ) : ℕ :=
  if i < 0 then (i + n).toNat else min i.toNat n

/-- Python list slice `l[a:b]` (step 1): never raises, just clamps. -/
def pySlice {α : Type} (l : List α) (a b : ℤ) : List α :=
  (l.take (pySliceIdx l.length b)).drop (pySliceIdx l.length a)

/-- Python `list.index` semantics: index of the first occurrence, `none` when
the element does not occur (Python raises `ValueError`). -/
def listIndex {α : Type} [DecidableEq α] (a : α) : List α → Option ℕ
  | [] => none
  | x :: xs => if x = a then some 0 else (listIndex a xs).map (· + 1)

/-- POINTER_LABEL_LIST from the source: the fixed ordered list of the 30
pointer labels that map to pointer numbers at the top of prmtop files. -/
def POINTER_LABEL_LIST : List String :=
  ["NATOM", "NTYPES", "NBONH", "MBONA", "NTHETH", "MTHETA",
   "NPHIH", "MPHIA", "NHPARM", "NPARM", "NEXT", "NRES",
   "NBONA", "NTHETA", "NPHIA", "NUMBND", "NUMANG", "NPTRA",
   "NATYP", "NPHB", "IFPERT", "NBPER", "NGPER", "NDPER",
   "MBPER", "MGPER", "MDPER", "IFBOX", "NMXRS", "IFCAP"]

/-- PrmtopLoader._getPointerValue: `POINTER_LABEL_LIST.index(label)` raises
`ValueError` for an unknown label; the resulting position indexes the
POINTERS token list, raising `IndexError` when it is out of range.  POINTERS
tokens are modelled as the integers they denote. -/
def _getPointerValue (pointers : List ℤ) (label : String) : Except String ℤ :=
  match listIndex label POINTER_LABEL_LIST with
  | none => .error "ValueError: label is not in list"
  | some index =>
    match pointers[index]? with
    | none => .error "IndexError: list index out of range"
    | some v => .ok v

/-- PrmtopLoader._getResiduePointer, inner loop: `for ii in range(1, len(resPointers))`
with body `if int(resPointers[ii]) - 1 > iAtom: iRes = ii; break`, starting
from `iRes = len(resPointers)`.  `remaining` is the part of the pointer list
from position `ii` on. -/
def residueGo (total : ℕ) (iAtom : ℤ) : List ℤ → ℕ → ℕ
  | [], _ => total
  | p :: ps, ii => if iAtom < p - 1 then ii else residueGo total iAtom ps (ii + 1)

/-- PrmtopLoader._getResiduePointer: returns `iRes - 1` where `iRes` is the
result of the scan above over `resPointers[1:]`.  The Python memoisation
cache is irrelevant to the value and is dropped. -/
def _getResiduePointer (resPointers : List ℤ) (iAtom : ℤ) : ℤ :=
  (residueGo resPointers.length iAtom (resPointers.drop 1) 1 : ℤ) - 1

/-- PrmtopLoader.getResidueNumber: one-based residue number of an atom. -/
def getResidueNumber (resPointers : List ℤ) (iAtom : ℤ) : ℤ :=
  _getResiduePointer resPointers iAtom + 1

/-- First position in the scanned pointer tail whose start exceeds the atom. -/
def firstHit (iAtom : ℤ) : List ℤ → Option ℕ
  | [] => none
  | p :: ps => if iAtom < p - 1 then some 0 else (firstHit iAtom ps).map (· + 1)

/-- PrmtopLoader._getBonds: walks the bond pointer tokens three at a time.
A negative value among the first two raw indices raises; the third token is a
one-based type index into the force-constant and equilibrium tables (Python
indexing, so a zero raw type wraps to the end of the table).  The raw atom
pointers are divided by 3 with Python 2 integer (floor) division.  A trailing
partial record makes the Python loop index past the end of the list. -/
def _getBonds (forceConstant bondEquil : List ℚ) : List ℤ → Except String (List (ℤ × ℤ × ℚ × ℚ))
  | [] => .ok []
  | b0 :: b1 :: b2 :: rest =>
      if b0 < 0 ∨ b1 < 0 then .error "Found negative bonded atom pointers" else do
      let k ← pyGetE forceConstant (b2 - 1)
      let r ← pyGetE bondEquil (b2 - 1)
      let tail ← _getBonds forceConstant bondEquil rest
      .ok ((b0.fdiv 3, b1.fdiv 3, k, r) :: tail)
  | [_] => .error "IndexError: list index out of range"
  | [b0, b1] =>
      if b0 < 0 ∨ b1 < 0 then .error "Found negative bonded atom pointers"
      else .error "IndexError: list index out of range"

/-- readAmberSystem, harmonic bond section with the default arguments
(`shake=None`, `flexibleConstraints=True`): every decoded bond from
BONDS_INC_HYDROGEN and then BONDS_WITHOUT_HYDROGEN is emitted as
`addBond(iAtom, jAtom, rMin, 2*k)` - the exposed force constant is double the
stored spectroscopic constant. -/
def readAmberBondForce (forceConstant bondEquil : List ℚ)
    (bondsIncH bondsNoH : List ℤ) : Except String (List (ℤ × ℤ × ℚ × ℚ)) := do
  let withH ← _getBonds forceConstant bondEquil bondsIncH
  let noH ← _getBonds forceConstant bondEquil bondsNoH
  .ok ((withH ++ noH).map (fun b => (b.1, b.2.1, b.2.2.2, 2 * b.2.2.1)))

/-- Dihedral pointer records, five raw tokens each; a trailing partial group
is dropped here (the consumers model their own out-of-range behaviour). -/
def chunks5 : List ℤ → List (ℤ × ℤ × ℤ × ℤ × ℤ)
  | p0 :: p1 :: p2 :: p3 :: p4 :: rest => (p0, p1, p2, p3, p4) :: chunks5 rest
  | _ => []

/-- Helper used by several loaders that run a Python `for i in range(n)` loop
accumulating one value per iteration and propagating the first exception. -/
def exceptRange {α : Type} (f : ℕ → Except String α) : ℕ → Except String (List α)
  | 0 => .ok []
  | n + 1 => do
    let l ← exceptRange f n
    let x ← f n
    .ok (l ++ [x])

/-- Python `str.rstrip()`: drop trailing whitespace.  Lines are modelled as
lists of characters (Python 2 strings are byte sequences; prmtop files are
plain text). -/
def rstrip (line : List Char) : List Char :=
  (line.reverse.dropWhile Char.isWhitespace).reverse

/-- Python `str.strip()`: drop whitespace on both ends (used only to state
the trimming side of the specification). -/
def strip (line : List Char) : List Char :=
  (rstrip line).dropWhile Char.isWhitespace

/-- Section reader, data-line slicing (PrmtopLoader.__init__, else branch):
`for index in range(0, len(line), iLength): item = line.rstrip()[index:index+iLength]`.
The offsets run over the length of the raw line (newline included) while the
slices are taken from the right-stripped line; offsets past the stripped text
produce empty slices. -/
def lineFields (line : List Char) (w : ℕ) : List (List Char) :=
  (List.range' 0 ((line.length + w - 1) / w) w).map
    (fun index => ((rstrip line).drop index).take w)

/-- Section reader, tokens appended for one data line: every non-empty slice
(`if item:`) is appended, in order.  The slices are not trimmed. -/
def dataLineTokens (line : List Char) (w : ℕ) : List (List Char) :=
  (lineFields line w).filter (fun item => decide (item ≠ []))

/-- Effect of one non-tag line on the active section of the reader. -/
inductive LineResult where
  | storeTitle : List Char → LineResult
  | appendTokens : List (List Char) → LineResult
  deriving DecidableEq

/-- Section reader, one non-tag line (PrmtopLoader.__init__): when the active
flag is TITLE and the title section has no content yet, the right-stripped
line is stored as a single raw string; otherwise the line is sliced into
fixed-width fields of the width `w` taken from the active format descriptor
and the non-empty fields are appended as tokens. -/
def readerDataStep (activeFlag : String) (titleContent : List Char) (w : ℕ)
    (line : List Char) : LineResult :=
  if activeFlag = "TITLE" ∧ titleContent = [] then .storeTitle (rstrip line)
  else .appendTokens (dataLineTokens line w)

/-- PrmtopLoader.getCharges: each raw CHARGE token (as a real number) divided
by the fixed constant 18.2223, for the first NATOM atoms. -/
noncomputable def getCharges (rawCharges : List ℝ) (numAtoms : ℕ) :
    Except String (List ℝ) :=
  exceptRange (fun i => do
    let c ← pyGetE rawCharges (i : ℤ)
    .ok (c / (18.2223 : ℝ))) numAtoms

/-- PrmtopLoader.getMasses: raw MASS tokens for the first NATOM atoms. -/
def getMasses (rawMasses : List ℚ) (numAtoms : ℕ) : Except String (List ℚ) :=
  exceptRange (fun i => pyGetE rawMasses (i : ℤ)) numAtoms

/-- PrmtopLoader.getNonbondTerms, body for one atom: the type index of the
atom selects cell `(numTypes+1)*(typeIndex-1)` of NONBONDED_PARM_INDEX, whose
one-based value gives the coefficient row `nbIndex`; a negative `nbIndex`
raises.  `rMin = (2*A/B)**(1/6.0)` and `epsilon = 0.25*B*B/A` are computed
under a `try` that catches only ZeroDivisionError (B = 0 on the first line,
A = 0 on the second) and then sets `rMin = 1.0, epsilon = 0.0`; a negative
power base raises an uncaught ValueError.  The appended pair is
`(rVdw, epsilon)` with `rVdw = rMin / 2.0`. -/
noncomputable def nonbondTermFor (numTypes : ℕ)
    (atomTypeIndexes nonbondedParmIndex : List ℤ) (acoefs bcoefs : List ℝ)
    (iAtom : ℕ) : Except String (ℝ × ℝ) := do
  let t ← pyGetE atomTypeIndexes (iAtom : ℤ)
  let raw ← pyGetE nonbondedParmIndex (((numTypes : ℤ) + 1) * (t - 1))
  let nbIndex := raw - 1
  if nbIndex < 0 then throw "10-12 interactions are not supported"
  let acoef ← pyGetE acoefs nbIndex
  let bcoef ← pyGetE bcoefs nbIndex
  let pr : ℝ × ℝ ←
    if bcoef = 0 then pure ((1 : ℝ), (0 : ℝ))
    else if 2 * acoef / bcoef < 0 then
      throw "ValueError: negative number cannot be raised to a fractional power"
    else if acoef = 0 then pure ((1 : ℝ), (0 : ℝ))
    else pure ((2 * acoef / bcoef) ^ ((1 : ℝ) / 6), 0.25 * bcoef * bcoef / acoef)
  .ok (pr.1 / 2, pr.2)

/-- PrmtopLoader.getNonbondTerms: the per-atom loop over `range(numAtoms)`. -/
noncomputable def getNonbondTerms (numAtoms numTypes : ℕ)
    (atomTypeIndexes nonbondedParmIndex : List ℤ) (acoefs bcoefs : List ℝ) :
    Except String (List (ℝ × ℝ)) :=
  exceptRange (nonbondTermFor numTypes atomTypeIndexes nonbondedParmIndex acoefs bcoefs)
    numAtoms

/-- PrmtopLoader.get14Interactions, body for one passing dihedral record:
atom indices are the raw first and fourth tokens floor-divided by 3; the
charge product multiplies the two decoded charges, the combined radius adds
the two per-atom Lennard-Jones radii and the combined epsilon is the
geometric mean. -/
noncomputable def entry14 (charges : List ℝ) (nonbondTerms : List (ℝ × ℝ))
    (p0 p3 : ℤ) : Except String (ℤ × ℤ × ℝ × ℝ × ℝ) := do
  let iAtom := p0.fdiv 3
  let lAtom := p3.fdiv 3
  let ci ← pyGetE charges iAtom
  let cl ← pyGetE charges lAtom
  let ti ← pyGetE nonbondTerms iAtom
  let tl ← pyGetE nonbondTerms lAtom
  .ok (iAtom, lAtom, ci * cl, ti.1 + tl.1, Real.sqrt (ti.2 * tl.2))

/-- PrmtopLoader.get14Interactions: walks the concatenated dihedral pointer
tokens five at a time; a record yields a 1-4 entry exactly when its third and
fourth raw tokens are strictly positive (`int(dp[ii+2])>0 and int(dp[ii+3])>0`,
with Python short-circuit evaluation on trailing partial records). -/
noncomputable def get14Interactions (charges : List ℝ)
    (nonbondTerms : List (ℝ × ℝ)) : List ℤ → Except String (List (ℤ × ℤ × ℝ × ℝ × ℝ))
  | [] => .ok []
  | p0 :: p1 :: p2 :: p3 :: _p4 :: rest =>
      if 0 < p2 ∧ 0 < p3 then do
        let e ← entry14 charges nonbondTerms p0 p3
        let tail ← get14Interactions charges nonbondTerms rest
        .ok (e :: tail)
      else get14Interactions charges nonbondTerms rest
  | [_] => .error "IndexError: list index out of range"
  | [_, _] => .error "IndexError: list index out of range"
  | [_, _, p2] =>
      if 0 < p2 then .error "IndexError: list index out of range" else .ok []
  | [p0, _, p2, p3] =>
      if 0 < p2 ∧ 0 < p3 then do
        let e ← entry14 charges nonbondTerms p0 p3
        .ok [e]
      else .ok []

/-- readAmberSystem, 1-4 exception emission: each 1-4 entry is emitted with
`chargeProd /= scee` and `epsilon /= scnb`. -/
noncomputable def emitted14 (scee scnb : ℝ) (l : List (ℤ × ℤ × ℝ × ℝ × ℝ)) :
    List (ℤ × ℤ × ℝ × ℝ × ℝ) :=
  l.map (fun e => (e.1, e.2.1, e.2.2.1 / scee, e.2.2.2.1, e.2.2.2.2 / scnb))

/-- Specification-side description of one 1-4 record (C2): an entry is
produced exactly when the third and fourth raw tokens are strictly positive,
the atom pair is the first and fourth raw tokens divided by 3, the charge
product multiplies the two decoded charges and is divided by scee, the
radius adds the two per-atom Lennard-Jones radii, and the epsilon is the
geometric mean of the two per-atom epsilons divided by scnb. -/
noncomputable def spec14Entry (scee scnb : ℝ) (charges : List ℝ)
    (nbt : List (ℝ × ℝ)) (c : ℤ × ℤ × ℤ × ℤ × ℤ) : Option (ℤ × ℤ × ℝ × ℝ × ℝ) :=
  if 0 < c.2.2.1 ∧ 0 < c.2.2.2.1 then
    some (c.1.fdiv 3, c.2.2.2.1.fdiv 3,
      ((pyGet charges (c.1.fdiv 3)).getD 0 *
        (pyGet charges (c.2.2.2.1.fdiv 3)).getD 0) / scee,
      ((pyGet nbt (c.1.fdiv 3)).getD (0, 0)).1 +
        ((pyGet nbt (c.2.2.2.1.fdiv 3)).getD (0, 0)).1,
      Real.sqrt (((pyGet nbt (c.1.fdiv 3)).getD (0, 0)).2 *
        ((pyGet nbt (c.2.2.2.1.fdiv 3)).getD (0, 0)).2) / scnb)
  else none

/-- readAmberSystem: `min((iAtom, jAtom), (jAtom, iAtom))`, the normalised
unordered-pair representative recorded in `excludedAtomPairs`. -/
def normPair (a b : ℤ) : ℤ × ℤ :=
  if a ≤ b then (a, b) else (b, a)

/-- PrmtopLoader.getExcludedAtoms, loop body: each atom consumes
`int(numExcludedAtomsList[iAtom])` entries of the flat EXCLUDED_ATOMS_LIST
(via a Python slice, which never raises), keeping the one-based entries that
are strictly positive and converting them to zero-based atom indices. -/
def getExcludedAtomsGo (numExcluded excludedList : List ℤ) :
    ℕ → ℕ → ℤ → Except String (List (List ℤ))
  | 0, _, _ => .ok []
  | n + 1, iAtom, total => do
    let cnt ← pyGetE numExcluded (iAtom : ℤ)
    let slice := pySlice excludedList total (total + cnt)
    let atomList := (slice.filter (fun j => decide (0 < j))).map (fun j => j - 1)
    let rest ← getExcludedAtomsGo numExcluded excludedList n (iAtom + 1) (total + cnt)
    .ok (atomList :: rest)

/-- PrmtopLoader.getExcludedAtoms: per-atom exclusion lists for the first
`numAtoms` atoms, walking the flat list with a running offset. -/
def getExcludedAtoms (numExcluded excludedList : List ℤ) (numAtoms : ℕ) :
    Except String (List (List ℤ)) :=
  getExcludedAtomsGo numExcluded excludedList numAtoms 0 0

/-- readAmberSystem, plain-exclusion emission: for each atom in order and each
of its excluded partners, the pair is skipped when its normalised form is
already in the recorded 1-4 pair set; otherwise a zero-strength exception
`(iAtom, jAtom)` is emitted. -/
def emitExclusions (excluded : List (List ℤ)) (pairs : List (ℤ × ℤ)) :
    List (ℤ × ℤ) :=
  excluded.enum.bind (fun ia =>
    (ia.2.filter (fun j => decide (normPair (ia.1 : ℤ) j ∉ pairs))).map
      (fun j => ((ia.1 : ℤ), j)))

/-- readAmberSystem, nonbonded exception/exclusion phase: the 1-4 entries are
emitted scaled, their normalised pairs recorded, and then the per-atom
exclusion lists are emitted with recorded pairs skipped. -/
noncomputable def nonbondedExceptionPhase (scee scnb : ℝ) (dihedralPointers : List ℤ)
    (charges : List ℝ) (nonbondTerms : List (ℝ × ℝ))
    (numExcluded excludedList : List ℤ) (numAtoms : ℕ) :
    Except String (List (ℤ × ℤ × ℝ × ℝ × ℝ) × List (ℤ × ℤ)) := do
  let inter14 ← get14Interactions charges nonbondTerms dihedralPointers
  let pairs := inter14.map (fun e => normPair e.1 e.2.1)
  let excluded ← getExcludedAtoms numExcluded excludedList numAtoms
  .ok (emitted14 scee scnb inter14, emitExclusions excluded pairs)

/-- Python 2 `int()` on a float: truncation toward zero. -/
noncomputable def pyTrunc (x : ℝ) : ℤ :=
  if 0 ≤ x then ⌊x⌋ else ⌈x⌉

/-- PrmtopLoader.getDihedrals: walks the concatenated dihedral pointer tokens
five at a time; negative first or second raw index raises; the absolute
values of the third and fourth raw indices are used; the fifth token is a
one-based type index into the force-constant, phase and periodicity tables;
phase is converted from radians to degrees and the exposed periodicity is
`int(0.5 + float(periodicity[iType]))`.  A trailing partial record makes the
loop index past the end of the list. -/
noncomputable def getDihedrals (forceConstant phase periodicity : List ℝ) :
    List ℤ → Except String (List (ℤ × ℤ × ℤ × ℤ × ℝ × ℝ × ℤ))
  | [] => .ok []
  | p0 :: p1 :: p2 :: p3 :: p4 :: rest =>
      if p0 < 0 ∨ p1 < 0 then .error "Found negative dihedral atom pointers" else do
      let fc ← pyGetE forceConstant (p4 - 1)
      let ph ← pyGetE phase (p4 - 1)
      let per ← pyGetE periodicity (p4 - 1)
      let tail ← getDihedrals forceConstant phase periodicity rest
      .ok ((p0.fdiv 3, p1.fdiv 3, (|p2|).fdiv 3, (|p3|).fdiv 3,
            fc, ph * 180 / Real.pi, pyTrunc (0.5 + per)) :: tail)
  | _ => .error "IndexError: list index out of range"

/-- PrmtopLoader.getBoxBetaAndDimensions: the first four BOX_DIMENSIONS tokens
as (beta, x, y, z). -/
def getBoxBetaAndDimensions (boxDimensions : List ℚ) :
    Except String (ℚ × ℚ × ℚ × ℚ) := do
  let beta ← pyGetE boxDimensions 0
  let x ← pyGetE boxDimensions 1
  let y ← pyGetE boxDimensions 2
  let z ← pyGetE boxDimensions 3
  .ok (beta, x, y, z)

/-- Projection of the OpenMM System built by readAmberSystem onto the parts
the box/flag claims mention: the particle masses and the optional periodic
box (beta angle and x/y/z extents). -/
structure SystemModel where
  particles : List ℚ
  box : Option (ℚ × ℚ × ℚ × ℚ)
  deriving DecidableEq

/-- readAmberSystem, control prefix: raises for a set cap flag, a set
perturbation flag, or a box flag greater than 1, in that order, before any
system content is produced; then particles are added for each mass, and the
periodic box data is read exactly when the box flag is nonzero.  The bonded
and nonbonded force sections are independent of these checks and are modelled
separately. -/
def readAmberSystemModel (pointers : List ℤ) (rawMasses : List ℚ)
    (boxDimensions : List ℚ) : Except String SystemModel := do
  let ifCap ← _getPointerValue pointers "IFCAP"
  if 0 < ifCap then throw "CAP option not currently supported"
  let ifPert ← _getPointerValue pointers "IFPERT"
  if 0 < ifPert then throw "perturbation not currently supported"
  let ifBox ← _getPointerValue pointers "IFBOX"
  if 1 < ifBox then throw "only standard periodic boxes are currently supported"
  let natom ← _getPointerValue pointers "NATOM"
  let masses ← getMasses rawMasses natom.toNat
  let box ← if ifBox = 0 then pure (none : Option (ℚ × ℚ × ℚ × ℚ))
    else do
      let bd ← getBoxBetaAndDimensions boxDimensions
      pure (some bd)
  .ok { particles := masses, box := box }

theorem exceptRange_ok {α : Type} (f : ℕ → Except String α) :
    ∀ (n : ℕ) (l : List α), exceptRange f n = .ok l →
      l.length = n ∧ ∀ i, i < n → ∃ x, f i = .ok x ∧ l.get? i = some x := by
  intro n
  induction n with
  | zero =>
    intro l h
    simp only [exceptRange] at h
    cases h
    exact ⟨rfl, by omega⟩
  | succ n ih =>
    intro l h
    simp only [exceptRange, bind, Except.bind] at h
    cases hprev : exceptRange f n with
    | error e => rw [hprev] at h; exact absurd h (by simp)
    | ok l0 =>
      rw [hprev] at h
      cases hx : f n with
      | error e => rw [hx] at h; exact absurd h (by simp)
      | ok x =>
        rw [hx] at h
        cases h
        obtain ⟨hlen, hget⟩ := ih l0 hprev
        refine ⟨by simp [hlen], ?_⟩
        intro i hi
        rcases Nat.lt_or_ge i n with hlt | hge
        · obtain ⟨y, hy, hgy⟩ := hget i hlt
          exact ⟨y, hy, by rw [List.get?_append (by omega), hgy]⟩
        · have : i = n := by omega
          subst this
          refine ⟨x, hx, ?_⟩
          rw [List.get?_append_right (by omega)]
          simp [hlen]

/-- Claim C4: for the synthetic input whose 30 POINTERS tokens report atom
count 2 and bonds-without-hydrogen count 1, with BONDS_WITHOUT_HYDROGEN
record (0, 3, 1), force constant 300.0 and equilibrium length 1.5 at type
index 0, the emitted bond list is exactly one bond between atoms 0 and 1
(raw indices divided by 3) with equilibrium length 1.5 and force constant
600.0, double the stored constant. -/
theorem claim_C4 :
    _getPointerValue ([2, 1, 0, 1] ++ List.replicate 26 0) "NATOM" = .ok 2 ∧
    _getPointerValue ([2, 1, 0, 1] ++ List.replicate 26 0) "MBONA" = .ok 1 ∧
    readAmberBondForce [300] [3/2] [] [0, 3, 1] = .ok [(0, 1, 3/2, 600)] := by
  refine ⟨rfl, rfl, ?_⟩
  simp [readAmberBondForce, _getBonds, pyGetE, pyGet, bind, Except.bind]
  norm_num

theorem residueGo_elim (total : ℕ) (iAtom : ℤ) :
    ∀ (l : List ℤ) (ii : ℕ),
      residueGo total iAtom l ii = (firstHit iAtom l).elim total (fun k => ii + k) := by
  intro l
  induction l with
  | nil => intro ii; rfl
  | cons p ps ih =>
    intro ii
    simp only [residueGo, firstHit]
    by_cases h : iAtom < p - 1
    · simp [h]
    · rw [if_neg h, if_neg h, ih (ii + 1)]
      cases firstHit iAtom ps with
      | none => rfl
      | some k => simp [Option.elim]; omega

theorem firstHit_some_bound (iAtom : ℤ) :
    ∀ (l : List ℤ) (k : ℕ), firstHit iAtom l = some k → k < l.length := by
  intro l
  induction l with
  | nil => intro k h; simp [firstHit] at h
  | cons p ps ih =>
    intro k h
    simp only [firstHit] at h
    by_cases hc : iAtom < p - 1
    · rw [if_pos hc] at h; cases h; simp
    · rw [if_neg hc] at h
      cases hfh : firstHit iAtom ps with
      | none => rw [hfh] at h; simp at h
      | some k0 =>
        rw [hfh] at h
        simp at h
        have := ih k0 hfh
        simp; omega

theorem firstHit_some_hit (iAtom : ℤ) :
    ∀ (l : List ℤ) (k : ℕ), firstHit iAtom l = some k →
      ∃ v : ℤ, l[k]? = some v ∧ iAtom < v - 1 := by
  intro l
  induction l with
  | nil => intro k h; simp [firstHit] at h
  | cons p ps ih =>
    intro k h
    simp only [firstHit] at h
    by_cases hc : iAtom < p - 1
    · rw [if_pos hc] at h; cases h; exact ⟨p, by simp, hc⟩
    · rw [if_neg hc] at h
      cases hfh : firstHit iAtom ps with
      | none => rw [hfh] at h; simp at h
      | some k0 =>
        rw [hfh] at h
        simp at h
        obtain ⟨v, hv, hlt⟩ := ih k0 hfh
        exact ⟨v, by rw [← h]; simpa using hv, hlt⟩

theorem firstHit_some_before (iAtom : ℤ) :
    ∀ (l : List ℤ) (k : ℕ), firstHit iAtom l = some k →
      ∀ (j : ℕ) (v : ℤ), j < k → l[j]? = some v → v - 1 ≤ iAtom := by
  intro l
  induction l with
  | nil => intro k h; simp [firstHit] at h
  | cons p ps ih =>
    intro k h j v hj hv
    simp only [firstHit] at h
    by_cases hc : iAtom < p - 1
    · rw [if_pos hc] at h; cases h; omega
    · rw [if_neg hc] at h
      cases hfh : firstHit iAtom ps with
      | none => rw [hfh] at h; simp at h
      | some k0 =>
        rw [hfh] at h
        simp at h
        cases j with
        | zero => simp at hv; omega
        | succ j0 =>
          simp at hv
          exact ih k0 hfh j0 v (by omega) hv

theorem firstHit_none (iAtom : ℤ) :
    ∀ (l : List ℤ), firstHit iAtom l = none →
      ∀ (j : ℕ) (v : ℤ), l[j]? = some v → v - 1 ≤ iAtom := by
  intro l
  induction l with
  | nil => intro _ j v hv; simp at hv
  | cons p ps ih =>
    intro h j v hv
    simp only [firstHit] at h
    by_cases hc : iAtom < p - 1
    · rw [if_pos hc] at h; simp at h
    · rw [if_neg hc] at h
      simp at h
      cases j with
      | zero => simp at hv; omega
      | succ j0 =>
        simp at hv
        exact ih h j0 v hv

theorem residue_char (resPointers : List ℤ) (iAtom : ℤ)
    (hsorted : List.Chain' (· < ·) resPointers)
    (hfirst : resPointers.head? = some 1)
    (hAtom : 0 ≤ iAtom) :
    0 ≤ _getResiduePointer resPointers iAtom ∧
    _getResiduePointer resPointers iAtom < resPointers.length ∧
    ∀ (j : ℕ) (v : ℤ), resPointers[j]? = some v →
      (v - 1 ≤ iAtom ↔ (j : ℤ) ≤ _getResiduePointer resPointers iAtom) := by
  cases resPointers with
  | nil => simp at hfirst
  | cons a tl =>
    have ha : a = 1 := by simpa using hfirst
    subst ha
    have hpw : List.Pairwise (· < ·) tl :=
      (List.pairwise_cons.1 ((List.chain'_iff_pairwise).1 hsorted)).2
    unfold _getResiduePointer
    rw [show ((1 : ℤ) :: tl).drop 1 = tl from rfl, residueGo_elim]
    cases hfh : firstHit iAtom tl with
    | none =>
      simp only [Option.elim, List.length_cons]
      refine ⟨by push_cast; omega, by push_cast; omega, ?_⟩
      intro j v hv
      cases j with
      | zero =>
        have hv1 : v = 1 := by simpa using hv.symm
        subst hv1
        constructor
        · intro _; push_cast; omega
        · intro _; omega
      | succ j0 =>
        have hv0 : tl[j0]? = some v := by simpa using hv
        have hle : v - 1 ≤ iAtom := firstHit_none iAtom tl hfh j0 v hv0
        obtain ⟨hj0, -⟩ := List.getElem?_eq_some.1 hv0
        constructor
        · intro _; push_cast; omega
        · intro _; exact hle
    | some k =>
      simp only [Option.elim, List.length_cons]
      have hkb : k < tl.length := firstHit_some_bound iAtom tl k hfh
      obtain ⟨w, hw, hwlt⟩ := firstHit_some_hit iAtom tl k hfh
      refine ⟨by push_cast; omega, by push_cast; omega, ?_⟩
      intro j v hv
      cases j with
      | zero =>
        have hv1 : v = 1 := by simpa using hv.symm
        subst hv1
        constructor
        · intro _; push_cast; omega
        · intro _; omega
      | succ j0 =>
        have hv0 : tl[j0]? = some v := by simpa using hv
        obtain ⟨hj0, hj0v⟩ := List.getElem?_eq_some.1 hv0
        rcases lt_trichotomy j0 k with hlt | heq | hgt
        · have hle : v - 1 ≤ iAtom := firstHit_some_before iAtom tl k hfh j0 v hlt hv0
          constructor
          · intro _; push_cast; omega
          · intro _; exact hle
        · subst heq
          have hwv : v = w := by
            obtain ⟨hk2, hk2v⟩ := List.getElem?_eq_some.1 hw
            rw [← hj0v, ← hk2v]
          subst hwv
          constructor
          · intro hcon; omega
          · intro hcon; push_cast at hcon; omega
        · have hord : w < v := by
            obtain ⟨hk2, hk2v⟩ := List.getElem?_eq_some.1 hw
            have := List.pairwise_iff_getElem.1 hpw k j0 hk2 hj0 hgt
            rw [hk2v, hj0v] at this
            exact this
          constructor
          · intro hcon; omega
          · intro hcon; push_cast at hcon; omega

/-- Claim C5: under the precondition that the residue-start pointer array is
strictly increasing and starts at 1, residue assignment is total on atom
indices: every atom index maps to the unique greatest residue index whose
zero-based start pointer is at most the atom index (the returned id is in
range, and a pointer position j has start at most the atom exactly when
j is at most the returned id), and the assigned ids are non-decreasing in
the atom index. -/
theorem claim_C5 (resPointers : List ℤ) (iAtom : ℤ)
    (hsorted : List.Chain' (· < ·) resPointers)
    (hfirst : resPointers.head? = some 1)
    (hAtom : 0 ≤ iAtom) :
    (0 ≤ _getResiduePointer resPointers iAtom ∧
     _getResiduePointer resPointers iAtom < resPointers.length ∧
     ∀ (j : ℕ) (v : ℤ), resPointers[j]? = some v →
       (v - 1 ≤ iAtom ↔ (j : ℤ) ≤ _getResiduePointer resPointers iAtom)) ∧
    ∀ iAtom2 : ℤ, iAtom ≤ iAtom2 →
      _getResiduePointer resPointers iAtom ≤ _getResiduePointer resPointers iAtom2 := by
  obtain ⟨hge, hlt, hiff⟩ := residue_char resPointers iAtom hsorted hfirst hAtom
  refine ⟨⟨hge, hlt, hiff⟩, ?_⟩
  intro iAtom2 h2
  obtain ⟨hge2, hlt2, hiff2⟩ :=
    residue_char resPointers iAtom2 hsorted hfirst (le_trans hAtom h2)
  set r := _getResiduePointer resPointers iAtom with hr
  have hrnat : ((r.toNat : ℤ)) = r := Int.toNat_of_nonneg hge
  have hrlen : r.toNat < resPointers.length := by omega
  obtain ⟨v, hv⟩ : ∃ v, resPointers[r.toNat]? = some v :=
    ⟨resPointers[r.toNat], List.getElem?_eq_getElem hrlen⟩
  have hvle : v - 1 ≤ iAtom := (hiff r.toNat v hv).2 (by omega)
  have := (hiff2 r.toNat v hv).1 (by omega)
  omega

/-- Claim C6 counterexample: a residue pointer list that is not strictly
increasing is accepted without any error and a residue assignment is
produced (atom 0 is assigned residue 0); the loader performs no consistency
validation of RESIDUE_POINTER at all. -/
theorem claim_C6_counterexample :
    ¬ List.Chain' (· < ·) ([1, 3, 2] : List ℤ) ∧
    _getResiduePointer [1, 3, 2] 0 = 0 := by
  refine ⟨by simp [List.chain'_cons], rfl⟩

/-- Claim C6 amended: residue decoding never fails, whatever the
RESIDUE_POINTER contents and however many pointers there are; for any
nonempty pointer list it silently returns an in-range residue index. -/
theorem claim_C6_amended (resPointers : List ℤ) (iAtom : ℤ)
    (hne : resPointers ≠ []) :
    0 ≤ _getResiduePointer resPointers iAtom ∧
    _getResiduePointer resPointers iAtom < resPointers.length := by
  unfold _getResiduePointer
  rw [residueGo_elim]
  have hlen : 1 ≤ resPointers.length := by
    cases resPointers with
    | nil => simp at hne
    | cons a tl => simp
  cases hfh : firstHit iAtom (resPointers.drop 1) with
  | none =>
    simp only [Option.elim]
    omega
  | some k =>
    have := firstHit_some_bound iAtom (resPointers.drop 1) k hfh
    simp only [Option.elim, List.length_drop] at this ⊢
    omega

/-- Claim C6 amended, witness at a concrete non-monotonic input. -/
theorem claim_C6_witness :
    0 ≤ _getResiduePointer [5, 4] 0 ∧ _getResiduePointer [5, 4] 0 < 2 :=
  claim_C6_amended [5, 4] 0 (by decide)

/-- Claim C5 witness at a concrete strictly increasing pointer list. -/
theorem claim_C5_witness :
    (0 ≤ _getResiduePointer [1, 3] 1 ∧
     _getResiduePointer [1, 3] 1 < 2 ∧
     ∀ (j : ℕ) (v : ℤ), ([1, 3] : List ℤ)[j]? = some v →
       (v - 1 ≤ 1 ↔ (j : ℤ) ≤ _getResiduePointer [1, 3] 1)) ∧
    ∀ iAtom2 : ℤ, 1 ≤ iAtom2 →
      _getResiduePointer [1, 3] 1 ≤ _getResiduePointer [1, 3] iAtom2 :=
  claim_C5 [1, 3] 1 (by simp [List.chain'_cons]) rfl (by norm_num)

theorem listIndex_eq_none {α : Type} [DecidableEq α] (a : α) :
    ∀ l : List α, a ∉ l → listIndex a l = none := by
  intro l
  induction l with
  | nil => intro _; rfl
  | cons x xs ih =>
    intro h
    simp only [List.mem_cons, not_or] at h
    have hx : ¬ x = a := fun hxa => h.1 hxa.symm
    simp [listIndex, hx, ih h.2]

theorem listIndex_some_lt {α : Type} [DecidableEq α] (a : α) :
    ∀ (l : List α) (i : ℕ), listIndex a l = some i → i < l.length := by
  intro l
  induction l with
  | nil => intro i h; simp [listIndex] at h
  | cons x xs ih =>
    intro i h
    simp only [listIndex] at h
    by_cases hx : x = a
    · rw [if_pos hx] at h; cases h; simp
    · rw [if_neg hx] at h
      cases hli : listIndex a xs with
      | none => rw [hli] at h; simp at h
      | some i0 =>
        rw [hli] at h
        simp at h
        have := ih i0 hli
        simp; omega

theorem listIndex_mem_some {α : Type} [DecidableEq α] (a : α) :
    ∀ l : List α, a ∈ l → ∃ i, listIndex a l = some i := by
  intro l
  induction l with
  | nil => intro h; simp at h
  | cons x xs ih =>
    intro h
    by_cases hx : x = a
    · exact ⟨0, by simp [listIndex, hx]⟩
    · have hmem : a ∈ xs := by
        rcases List.mem_cons.1 h with h1 | h1
        · exact absurd h1.symm hx
        · exact h1
      obtain ⟨i, hi⟩ := ih hmem
      exact ⟨i + 1, by simp [listIndex, hx, hi]⟩

/-- Claim C8 amended: looking up a name outside the fixed 30-label list
always fails; looking up a listed name returns the token at the fixed
position of that name whenever that position is within the POINTERS token
list, and fails exactly when the position is out of range - in particular,
with at least 30 tokens every listed name succeeds, but with fewer than 30
tokens a lookup still succeeds as long as the requested position exists. -/
theorem claim_C8_amended (pointers : List ℤ) (label : String) :
    (label ∉ POINTER_LABEL_LIST →
      _getPointerValue pointers label = .error "ValueError: label is not in list") ∧
    (∀ i : ℕ, listIndex label POINTER_LABEL_LIST = some i →
      (∀ v : ℤ, pointers[i]? = some v → _getPointerValue pointers label = .ok v) ∧
      (pointers.length ≤ i →
        _getPointerValue pointers label = .error "IndexError: list index out of range")) ∧
    (30 ≤ pointers.length → label ∈ POINTER_LABEL_LIST →
      ∃ (i : ℕ) (v : ℤ), listIndex label POINTER_LABEL_LIST = some i ∧
        pointers[i]? = some v ∧ _getPointerValue pointers label = .ok v) := by
  refine ⟨?_, ?_, ?_⟩
  · intro hmem
    simp [_getPointerValue, listIndex_eq_none label POINTER_LABEL_LIST hmem]
  · intro i hi
    constructor
    · intro v hv
      simp [_getPointerValue, hi, hv]
    · intro hlen
      have hnone : pointers[i]? = none := List.getElem?_eq_none hlen
      simp [_getPointerValue, hi, hnone]
  · intro hlen hmem
    obtain ⟨i, hi⟩ := listIndex_mem_some label POINTER_LABEL_LIST hmem
    have hi30 : i < 30 := by
      have := listIndex_some_lt label POINTER_LABEL_LIST i hi
      simpa [POINTER_LABEL_LIST] using this
    have hilen : i < pointers.length := by omega
    refine ⟨i, pointers[i], hi, List.getElem?_eq_getElem hilen, ?_⟩
    simp [_getPointerValue, hi, List.getElem?_eq_getElem hilen]

/-- Claim C8 counterexample: a POINTERS section holding a single token has
fewer than 30 tokens, yet looking up NATOM succeeds and returns that token
instead of failing. -/
theorem claim_C8_counterexample :
    ([(7 : ℤ)] : List ℤ).length < 30 ∧ _getPointerValue [7] "NATOM" = .ok 7 := by
  exact ⟨by decide, rfl⟩

/-- Claim C8 witness: lookup of NTYPES, fixed position 1, in a two-token
POINTERS section. -/
theorem claim_C8_witness : _getPointerValue [2, 3] "NTYPES" = .ok 3 :=
  ((claim_C8_amended [2, 3] "NTYPES").2.1 1 rfl).1 3 rfl

/-- Claim C7: for a non-tag line, when the active section is not a TITLE
section with empty content, the line is sliced into consecutive fixed-width
fields of the descriptor width and the non-empty fields are appended as
tokens in left-to-right order - in particular every field that is non-empty
after trimming occurs among the appended tokens, in order; when the active
section is the TITLE section with no content yet, the right-stripped line is
stored as one raw string with no width slicing. -/
theorem claim_C7 (activeFlag : String) (titleContent : List Char) (w : ℕ)
    (line : List Char) :
    (¬(activeFlag = "TITLE" ∧ titleContent = []) →
      readerDataStep activeFlag titleContent w line =
        .appendTokens (dataLineTokens line w) ∧
      ((lineFields line w).filter (fun f => decide (strip f ≠ []))).Sublist
        (dataLineTokens line w)) ∧
    ((activeFlag = "TITLE" ∧ titleContent = []) →
      readerDataStep activeFlag titleContent w line = .storeTitle (rstrip line)) := by
  constructor
  · intro h
    refine ⟨by rw [readerDataStep, if_neg h], ?_⟩
    unfold dataLineTokens
    apply List.monotone_filter_right
    intro f hf
    simp only [decide_eq_true_eq] at hf ⊢
    intro he
    subst he
    exact hf rfl
  · intro h
    rw [readerDataStep, if_pos h]

/-- Claim C7 witness: a MASS-section data line of width 4 whose middle field
is all spaces; the trim-non-empty fields appear among the tokens in order. -/
theorem claim_C7_witness :
    readerDataStep "MASS" [] 4 ("  ab  cd".toList) =
      .appendTokens (dataLineTokens ("  ab  cd".toList) 4) ∧
    ((lineFields ("  ab  cd".toList) 4).filter
        (fun f => decide (strip f ≠ []))).Sublist
      (dataLineTokens ("  ab  cd".toList) 4) :=
  (claim_C7 "MASS" [] 4 ("  ab  cd".toList)).1 (by decide)

/-- Claim C9: when the box flag exceeds 1, or the cap flag is set, or the
perturbation flag is set, system construction fails with an error and no
model is returned; when a model is returned and the box flag is a
nonnegative value, the periodic box data is present in the model exactly
when the box flag is the standard value 1. -/
theorem claim_C9 (pointers : List ℤ) (rawMasses boxDimensions : List ℚ)
    (c p b : ℤ)
    (hc : _getPointerValue pointers "IFCAP" = .ok c)
    (hp : _getPointerValue pointers "IFPERT" = .ok p)
    (hb : _getPointerValue pointers "IFBOX" = .ok b) :
    ((1 < b ∨ 0 < c ∨ 0 < p) →
      ∃ e, readAmberSystemModel pointers rawMasses boxDimensions = .error e) ∧
    (∀ m, readAmberSystemModel pointers rawMasses boxDimensions = .ok m →
      0 ≤ b → (m.box.isSome ↔ b = 1)) := by
  constructor
  · intro hbad
    by_cases hcap : 0 < c
    · exact ⟨"CAP option not currently supported",
        by simp [readAmberSystemModel, hc, hcap, bind, Except.bind, pure, Except.pure, throw, throwThe,
          MonadExceptOf.throw]⟩
    · by_cases hpert : 0 < p
      · exact ⟨"perturbation not currently supported",
          by simp [readAmberSystemModel, hc, hp, hcap, hpert, bind, Except.bind, pure, Except.pure, throw,
            throwThe, MonadExceptOf.throw]⟩
      · have hbox : 1 < b := by tauto
        exact ⟨"only standard periodic boxes are currently supported",
          by simp [readAmberSystemModel, hc, hp, hb, hcap, hpert, hbox, bind, Except.bind, pure, Except.pure,
            throw, throwThe, MonadExceptOf.throw]⟩
  · intro m hm hbnn
    simp only [readAmberSystemModel, hc, hp, hb, bind, Except.bind] at hm
    by_cases hcap : 0 < c
    · simp [hcap, pure, Except.pure, throw, throwThe, MonadExceptOf.throw] at hm
    · by_cases hpert : 0 < p
      · simp [hcap, hpert, pure, Except.pure, throw, throwThe, MonadExceptOf.throw] at hm
      · by_cases hbox : 1 < b
        · simp [hcap, hpert, hbox, pure, Except.pure, throw, throwThe, MonadExceptOf.throw] at hm
        · simp only [hcap, hpert, hbox, if_neg, ite_false, pure, Except.pure, throw,
            throwThe, MonadExceptOf.throw] at hm
          cases hnat : _getPointerValue pointers "NATOM" with
          | error e => rw [hnat] at hm; simp at hm
          | ok natom =>
            rw [hnat] at hm
            simp only [pure, Except.pure] at hm
            cases hms : getMasses rawMasses natom.toNat with
            | error e => rw [hms] at hm; simp at hm
            | ok masses =>
              rw [hms] at hm
              by_cases hb0 : b = 0
              · simp [hb0, pure, Except.pure] at hm
                rw [← hm]
                simp [hb0]
              · simp only [hb0, if_false, ite_false] at hm
                cases hbd : getBoxBetaAndDimensions boxDimensions with
                | error e => rw [hbd] at hm; simp at hm
                | ok bd =>
                  rw [hbd] at hm
                  simp only [pure, Except.pure, Except.ok.injEq] at hm
                  rw [← hm]
                  simp
                  omega

/-- Claim C9 witness: a POINTERS section whose box flag is 2 (cap and
perturbation flags clear) makes system construction fail. -/
theorem claim_C9_witness :
    ∃ e, readAmberSystemModel (List.replicate 27 0 ++ [2, 0, 0]) [] [] = .error e :=
  (claim_C9 (List.replicate 27 0 ++ [2, 0, 0]) [] [] 0 0 2 (by rfl) (by rfl)
    (by rfl)).1 (Or.inl (by norm_num))

/-- Claim C1 counterexample: one atom of type 1, coefficient row with
A = 1 and B = 0.  The decoder succeeds and the exposed pair is
(0.5, 0.0), not (1.0, 0.0): the first component of the exposed pair is
rMin/2 (the van der Waals radius), not rMin. -/
theorem claim_C1_counterexample :
    getNonbondTerms 1 1 [1] [1] [1] [0] = .ok [((1 : ℝ) / 2, 0)] ∧
    (((1 : ℝ) / 2, (0 : ℝ))) ≠ ((1 : ℝ), (0 : ℝ)) := by
  constructor
  · simp [getNonbondTerms, exceptRange, nonbondTermFor, pyGetE, pyGet,
      bind, Except.bind, pure, Except.pure]
  · simp only [ne_eq, Prod.mk.injEq, not_and]
    intro h
    norm_num at h

/-- Claim C1 amended: for an atom whose type lookup chain succeeds, the
decoder reads cell (numTypes+1)*(t-1) of NONBONDED_PARM_INDEX, its one-based
value converted to the zero-based coefficient row raw-1 is necessarily
nonnegative (a negative row is fatal), and the exposed per-atom pair is
(rMin/2, epsilon) - the van der Waals radius, half of rMin - with
rMin = (2A/B)^(1/6) and epsilon = 0.25 B^2/A away from the degenerate case,
and (rMin = 1, epsilon = 0), hence exposed pair (0.5, 0), when B = 0 or
A = 0, without any error. -/
theorem claim_C1_amended (numAtoms numTypes : ℕ)
    (atomTypeIndexes nonbondedParmIndex : List ℤ) (acoefs bcoefs : List ℝ)
    (out : List (ℝ × ℝ))
    (hok : getNonbondTerms numAtoms numTypes atomTypeIndexes nonbondedParmIndex
      acoefs bcoefs = .ok out)
    (iAtom : ℕ) (hia : iAtom < numAtoms)
    (t : ℤ) (ht : pyGet atomTypeIndexes (iAtom : ℤ) = some t)
    (raw : ℤ)
    (hraw : pyGet nonbondedParmIndex (((numTypes : ℤ) + 1) * (t - 1)) = some raw)
    (A B : ℝ) (hA : pyGet acoefs (raw - 1) = some A)
    (hB : pyGet bcoefs (raw - 1) = some B) :
    1 ≤ raw ∧
    (B = 0 ∨ A = 0 → out.get? iAtom = some ((1 : ℝ) / 2, 0)) ∧
    (B ≠ 0 → A ≠ 0 →
      out.get? iAtom = some ((2 * A / B) ^ ((1 : ℝ) / 6) / 2, 0.25 * B * B / A)) := by
  obtain ⟨x, hx, hget⟩ := (exceptRange_ok _ numAtoms out hok).2 iAtom hia
  simp only [nonbondTermFor, pyGetE, ht, hraw, hA, hB, bind, Except.bind, pure,
    Except.pure, throw, throwThe, MonadExceptOf.throw] at hx
  by_cases hneg : raw - 1 < 0
  · rw [if_pos hneg] at hx
    simp at hx
  · rw [if_neg hneg] at hx
    refine ⟨by omega, ?_, ?_⟩
    · intro hdeg
      rcases hdeg with hB0 | hA0
      · rw [if_pos hB0] at hx
        simp only [Except.ok.injEq] at hx
        rw [← hx] at hget
        exact hget
      · by_cases hB0 : B = 0
        · rw [if_pos hB0] at hx
          simp only [Except.ok.injEq] at hx
          rw [← hx] at hget
          exact hget
        · rw [if_neg hB0] at hx
          by_cases hbase : 2 * A / B < 0
          · rw [if_pos hbase] at hx; simp at hx
          · rw [if_neg hbase, if_pos hA0] at hx
            simp only [Except.ok.injEq] at hx
            rw [← hx] at hget
            exact hget
    · intro hB0 hA0
      rw [if_neg hB0] at hx
      by_cases hbase : 2 * A / B < 0
      · rw [if_pos hbase] at hx; simp at hx
      · rw [if_neg hbase, if_neg hA0] at hx
        simp only [Except.ok.injEq] at hx
        rw [← hx] at hget
        exact hget

/-- Claim C1 amended witness: one atom, type 1, coefficient row 0 with
A = 1, B = 0; the degenerate branch of the amended claim applies. -/
theorem claim_C1_witness :
    1 ≤ (1 : ℤ) ∧
    ((0 : ℝ) = 0 ∨ (1 : ℝ) = 0 →
      [((1 : ℝ) / 2, (0 : ℝ))].get? 0 = some ((1 : ℝ) / 2, 0)) ∧
    ((0 : ℝ) ≠ 0 → (1 : ℝ) ≠ 0 →
      [((1 : ℝ) / 2, (0 : ℝ))].get? 0 =
        some ((2 * 1 / 0) ^ ((1 : ℝ) / 6) / 2, 0.25 * 0 * 0 / 1)) :=
  claim_C1_amended 1 1 [1] [1] [1] [0] [((1 : ℝ) / 2, 0)]
    (by simp [getNonbondTerms, exceptRange, nonbondTermFor, pyGetE, pyGet,
      bind, Except.bind, pure, Except.pure])
    0 (by norm_num) 1 rfl 1 rfl 1 0 rfl rfl

theorem pyGetE_ok {α : Type} (l : List α) (i : ℤ) (a : α) :
    pyGetE l i = .ok a ↔ pyGet l i = some a := by
  unfold pyGetE
  cases h : pyGet l i <;> simp

theorem getDihedrals_get (fc ph per : List ℝ) (dp : List ℤ) :
    ∀ (out : List (ℤ × ℤ × ℤ × ℤ × ℝ × ℝ × ℤ)),
      getDihedrals fc ph per dp = .ok out →
      ∀ (k : ℕ) (c : ℤ × ℤ × ℤ × ℤ × ℤ), (chunks5 dp).get? k = some c →
        ∃ fcv phv perv, pyGet fc (c.2.2.2.2 - 1) = some fcv ∧
          pyGet ph (c.2.2.2.2 - 1) = some phv ∧
          pyGet per (c.2.2.2.2 - 1) = some perv ∧
          out.get? k = some (c.1.fdiv 3, c.2.1.fdiv 3, (|c.2.2.1|).fdiv 3,
            (|c.2.2.2.1|).fdiv 3, fcv, phv * 180 / Real.pi, pyTrunc (0.5 + perv)) := by
  induction dp using getDihedrals.induct fc ph per with
  | case1 =>
    intro out hok k c hc
    simp [chunks5] at hc
  | case2 p0 p1 p2 p3 p4 rest hneg =>
    intro out hok k c hc
    simp only [getDihedrals] at hok
    rw [if_pos hneg] at hok
    simp at hok
  | case3 p0 p1 p2 p3 p4 rest hneg ih =>
    intro out hok k c hc
    simp only [getDihedrals] at hok
    rw [if_neg hneg] at hok
    simp only [bind, Except.bind] at hok
    cases hfc : pyGetE fc (p4 - 1) with
    | error e => rw [hfc] at hok; simp at hok
    | ok fcv =>
      rw [hfc] at hok
      cases hph : pyGetE ph (p4 - 1) with
      | error e => rw [hph] at hok; simp at hok
      | ok phv =>
        rw [hph] at hok
        cases hper : pyGetE per (p4 - 1) with
        | error e => rw [hper] at hok; simp at hok
        | ok perv =>
          rw [hper] at hok
          cases htl : getDihedrals fc ph per rest with
          | error e => rw [htl] at hok; simp at hok
          | ok tail =>
            rw [htl] at hok
            simp only [pure, Except.pure, Except.ok.injEq] at hok
            subst hok
            simp only [chunks5] at hc
            cases k with
            | zero =>
              simp only [List.get?] at hc
              cases hc
              exact ⟨fcv, phv, perv, (pyGetE_ok _ _ _).1 hfc,
                (pyGetE_ok _ _ _).1 hph, (pyGetE_ok _ _ _).1 hper, rfl⟩
            | succ k0 =>
              simp only [List.get?] at hc ⊢
              exact ih tail htl k0 c hc
  | case4 t h1 h2 =>
    intro out hok k c hc
    cases t with
    | nil => exact absurd rfl h1
    | cons a0 r0 =>
      cases r0 with
      | nil => simp [getDihedrals] at hok
      | cons a1 r1 =>
        cases r1 with
        | nil => simp [getDihedrals] at hok
        | cons a2 r2 =>
          cases r2 with
          | nil => simp [getDihedrals] at hok
          | cons a3 r3 =>
            cases r3 with
            | nil => simp [getDihedrals] at hok
            | cons a4 r4 => exact absurd rfl (h2 a0 a1 a2 a3 a4 r4)

/-- Claim C10 amended: the exposed periodicity of a dihedral term is the
stored DIHEDRAL_PERIODICITY value v at the one-based type index, rounded by
truncation toward zero of v + 0.5 (Python int()); this agrees with
floor(v + 0.5) whenever v is at least -1/2 (in particular for every
nonnegative stored periodicity), and a non-integer stored periodicity is
silently rounded, not rejected. -/
theorem claim_C10_amended (fc ph per : List ℝ) (dp : List ℤ)
    (out : List (ℤ × ℤ × ℤ × ℤ × ℝ × ℝ × ℤ))
    (hok : getDihedrals fc ph per dp = .ok out)
    (k : ℕ) (c : ℤ × ℤ × ℤ × ℤ × ℤ) (hc : (chunks5 dp).get? k = some c)
    (v : ℝ) (hv : pyGet per (c.2.2.2.2 - 1) = some v) :
    (∃ fcv phv, out.get? k = some (c.1.fdiv 3, c.2.1.fdiv 3, (|c.2.2.1|).fdiv 3,
      (|c.2.2.2.1|).fdiv 3, fcv, phv, pyTrunc (0.5 + v))) ∧
    (-(1 / 2 : ℝ) ≤ v → pyTrunc (0.5 + v) = ⌊v + 0.5⌋) := by
  obtain ⟨fcv, phv, perv, hfc, hph, hper, hout⟩ :=
    getDihedrals_get fc ph per dp out hok k c hc
  rw [hv] at hper
  have hvv : v = perv := by
    injection hper
  subst hvv
  refine ⟨⟨fcv, phv * 180 / Real.pi, hout⟩, ?_⟩
  intro hge
  unfold pyTrunc
  rw [if_pos (by norm_num at hge ⊢; linarith), show (0.5 : ℝ) + v = v + 0.5 from by ring]

/-- Claim C10 counterexample: a dihedral record of type 1 whose stored
periodicity is -2 decodes with exposed periodicity -1 (truncation toward
zero of -1.5), while floor(-2 + 0.5) is -2: the claimed floor rounding does
not describe the code for stored values below -1/2. -/
theorem claim_C10_counterexample :
    getDihedrals [1] [0] [-2] [0, 3, 6, 9, 1] =
      .ok [(0, 1, 2, 3, (1 : ℝ), 0 * 180 / Real.pi, -1)] ∧
    (-1 : ℤ) ≠ ⌊(-2 : ℝ) + 0.5⌋ := by
  constructor
  · have htr : pyTrunc (0.5 + (-2 : ℝ)) = -1 := by
      unfold pyTrunc
      rw [if_neg (by norm_num), Int.ceil_eq_iff]
      norm_num
    simp [getDihedrals, pyGetE, pyGet, bind, Except.bind, pure, Except.pure, htr]
  · have : ⌊(-2 : ℝ) + 0.5⌋ = -2 := by
      rw [show (-2 : ℝ) + 0.5 = -(3 / 2) from by norm_num]
      norm_num [Int.floor_eq_iff]
    omega

/-- Claim C10 amended witness: stored periodicity 5/2 (a non-integer) is
silently rounded; truncation and floor agree there. -/
theorem claim_C10_witness :
    pyTrunc (0.5 + (5 / 2 : ℝ)) = ⌊(5 / 2 : ℝ) + 0.5⌋ :=
  (claim_C10_amended [7] [0] [5 / 2] [0, 3, 6, 9, 1]
    [(0, 1, 2, 3, (7 : ℝ), 0 * 180 / Real.pi, pyTrunc (0.5 + 5 / 2))] rfl
    0 (0, 3, 6, 9, 1) rfl (5 / 2) rfl).2 (by norm_num)

theorem entry14_ok (charges : List ℝ) (nbt : List (ℝ × ℝ)) (p0 p3 : ℤ)
    (e : ℤ × ℤ × ℝ × ℝ × ℝ) (h : entry14 charges nbt p0 p3 = .ok e) :
    ∃ ci cl ti tl, pyGet charges (p0.fdiv 3) = some ci ∧
      pyGet charges (p3.fdiv 3) = some cl ∧
      pyGet nbt (p0.fdiv 3) = some ti ∧ pyGet nbt (p3.fdiv 3) = some tl ∧
      e = (p0.fdiv 3, p3.fdiv 3, ci * cl, ti.1 + tl.1, Real.sqrt (ti.2 * tl.2)) := by
  simp only [entry14, bind, Except.bind] at h
  cases hci : pyGetE charges (p0.fdiv 3) with
  | error e0 => rw [hci] at h; simp at h
  | ok ci =>
    rw [hci] at h
    cases hcl : pyGetE charges (p3.fdiv 3) with
    | error e0 => rw [hcl] at h; simp at h
    | ok cl =>
      rw [hcl] at h
      cases hti : pyGetE nbt (p0.fdiv 3) with
      | error e0 => rw [hti] at h; simp at h
      | ok ti =>
        rw [hti] at h
        cases htl : pyGetE nbt (p3.fdiv 3) with
        | error e0 => rw [htl] at h; simp at h
        | ok tl =>
          rw [htl] at h
          simp only [pure, Except.pure, Except.ok.injEq] at h
          exact ⟨ci, cl, ti, tl, (pyGetE_ok _ _ _).1 hci, (pyGetE_ok _ _ _).1 hcl,
            (pyGetE_ok _ _ _).1 hti, (pyGetE_ok _ _ _).1 htl, h.symm⟩

theorem get14_filterMap (scee scnb : ℝ) (charges : List ℝ) (nbt : List (ℝ × ℝ)) :
    ∀ dp : List ℤ, dp.length % 5 = 0 →
      ∀ out, get14Interactions charges nbt dp = .ok out →
        emitted14 scee scnb out =
          (chunks5 dp).filterMap (spec14Entry scee scnb charges nbt) := by
  intro dp
  induction dp using get14Interactions.induct charges nbt with
  | case1 =>
    intro _ out hok
    simp only [get14Interactions, Except.ok.injEq] at hok
    subst hok
    simp [emitted14, chunks5]
  | case2 p0 p1 p2 p3 _p4 rest hguard ih =>
    intro hlen out hok
    have hlen5 : rest.length % 5 = 0 := by simp at hlen; omega
    simp only [get14Interactions, if_pos hguard, bind, Except.bind] at hok
    cases hentry : entry14 charges nbt p0 p3 with
    | error e0 => rw [hentry] at hok; simp at hok
    | ok e =>
      rw [hentry] at hok
      cases htail : get14Interactions charges nbt rest with
      | error e0 => rw [htail] at hok; simp at hok
      | ok tail =>
        rw [htail] at hok
        simp only [pure, Except.pure, Except.ok.injEq] at hok
        subst hok
        obtain ⟨ci, cl, ti, tl, hci, hcl, hti, htl, he⟩ :=
          entry14_ok charges nbt p0 p3 e hentry
        subst he
        simp only [chunks5, List.filterMap_cons]
        rw [show spec14Entry scee scnb charges nbt (p0, p1, p2, p3, _p4) =
          some (p0.fdiv 3, p3.fdiv 3, ci * cl / scee, ti.1 + tl.1,
            Real.sqrt (ti.2 * tl.2) / scnb) from by
            simp [spec14Entry, if_pos hguard, hci, hcl, hti, htl]]
        simp only [emitted14, List.map_cons]
        rw [← emitted14, ih hlen5 tail htail]
  | case3 p0 p1 p2 p3 _p4 rest hguard ih =>
    intro hlen out hok
    have hlen5 : rest.length % 5 = 0 := by simp at hlen; omega
    simp only [get14Interactions, if_neg hguard] at hok
    simp only [chunks5, List.filterMap_cons]
    rw [show spec14Entry scee scnb charges nbt (p0, p1, p2, p3, _p4) = none from by
      simp [spec14Entry, if_neg hguard]]
    exact ih hlen5 out hok
  | case4 a => intro hlen; simp at hlen
  | case5 a b => intro hlen; simp at hlen
  | case6 a b p2 hp => intro hlen; simp at hlen
  | case7 a b p2 hp => intro hlen; simp at hlen
  | case8 a b p2 p3 hp => intro hlen; simp at hlen
  | case9 a b p2 p3 hp => intro hlen; simp at hlen

/-- Claim C2: with the decoded charges, for every complete dihedral record
list (five raw tokens per record), a scaled 1-4 exception entry is produced
exactly for the records whose third and fourth raw tokens are strictly
positive, and each produced entry carries the atom pair (raw0/3, raw3/3),
charge product charge(i)*charge(l) divided by scee, the sum of the two
Lennard-Jones radii, and the geometric mean of the two epsilons divided by
scnb, in record order. -/
theorem claim_C2 (scee scnb : ℝ) (rawCharges : List ℝ) (numAtoms : ℕ)
    (charges : List ℝ) (nbt : List (ℝ × ℝ)) (dp : List ℤ)
    (out : List (ℤ × ℤ × ℝ × ℝ × ℝ))
    (hch : getCharges rawCharges numAtoms = .ok charges)
    (hlen : dp.length % 5 = 0)
    (hok : get14Interactions charges nbt dp = .ok out) :
    emitted14 scee scnb out =
      (chunks5 dp).filterMap (spec14Entry scee scnb charges nbt) :=
  get14_filterMap scee scnb charges nbt dp hlen out hok

/-- Claim C2 witness: one dihedral record (0, 3, 6, 9, 1) over four atoms of
zero charge and zero Lennard-Jones parameters, scee = 6/5, scnb = 2. -/
theorem claim_C2_witness :
    emitted14 (6 / 5) 2
      [((0 : ℤ), (3 : ℤ), (0 : ℝ) / (18.2223 : ℝ) * ((0 : ℝ) / (18.2223 : ℝ)),
        (0 : ℝ) + 0, Real.sqrt ((0 : ℝ) * 0))] =
      (chunks5 [0, 3, 6, 9, 1]).filterMap
        (spec14Entry (6 / 5) 2
          [(0 : ℝ) / (18.2223 : ℝ), (0 : ℝ) / (18.2223 : ℝ),
           (0 : ℝ) / (18.2223 : ℝ), (0 : ℝ) / (18.2223 : ℝ)]
          [((0 : ℝ), (0 : ℝ)), ((0 : ℝ), (0 : ℝ)), ((0 : ℝ), (0 : ℝ)),
           ((0 : ℝ), (0 : ℝ))]) :=
  claim_C2 (6 / 5) 2 [0, 0, 0, 0] 4
    [(0 : ℝ) / (18.2223 : ℝ), (0 : ℝ) / (18.2223 : ℝ),
     (0 : ℝ) / (18.2223 : ℝ), (0 : ℝ) / (18.2223 : ℝ)]
    [((0 : ℝ), (0 : ℝ)), ((0 : ℝ), (0 : ℝ)), ((0 : ℝ), (0 : ℝ)),
     ((0 : ℝ), (0 : ℝ))]
    [0, 3, 6, 9, 1]
    [((0 : ℤ), (3 : ℤ), (0 : ℝ) / (18.2223 : ℝ) * ((0 : ℝ) / (18.2223 : ℝ)),
      (0 : ℝ) + 0, Real.sqrt ((0 : ℝ) * 0))]
    rfl (by decide) rfl

/-- Claim C3: in the emitted nonbonded tables, every unordered pair recorded
as a 1-4 exception is skipped when the plain exclusions are emitted, so no
unordered atom pair occurs both among the emitted 1-4 exceptions and among
the emitted plain exclusions. -/
theorem claim_C3 (scee scnb : ℝ) (dp : List ℤ) (charges : List ℝ)
    (nbt : List (ℝ × ℝ)) (numExcluded excludedList : List ℤ) (numAtoms : ℕ)
    (res : List (ℤ × ℤ × ℝ × ℝ × ℝ) × List (ℤ × ℤ))
    (hok : nonbondedExceptionPhase scee scnb dp charges nbt numExcluded
      excludedList numAtoms = .ok res) :
    ∀ q ∈ res.2, normPair q.1 q.2 ∉ res.1.map (fun e => normPair e.1 e.2.1) := by
  simp only [nonbondedExceptionPhase, bind, Except.bind] at hok
  cases h14 : get14Interactions charges nbt dp with
  | error e => rw [h14] at hok; simp at hok
  | ok inter14 =>
    rw [h14] at hok
    cases hex : getExcludedAtoms numExcluded excludedList numAtoms with
    | error e => rw [hex] at hok; simp at hok
    | ok excluded =>
      rw [hex] at hok
      simp only [pure, Except.pure, Except.ok.injEq] at hok
      subst hok
      intro q hq
      have hmap : (emitted14 scee scnb inter14).map (fun e => normPair e.1 e.2.1)
          = inter14.map (fun e => normPair e.1 e.2.1) := by
        simp only [emitted14, List.map_map]
        rfl
      simp only [hmap]
      simp only [emitExclusions, List.mem_bind, List.mem_map, List.mem_filter] at hq
      obtain ⟨ia, hmem, j, ⟨hjmem, hjkeep⟩, hq2⟩ := hq
      simp only [decide_eq_true_eq] at hjkeep
      rw [← hq2]
      simpa using hjkeep

/-- Claim C3 witness: one 1-4 record pairing atoms 0 and 3, and an exclusion
list in which atom 0 excludes atoms 3 and 1; the emitted exclusions keep
(0, 1) and the pair (0, 3) recorded as a 1-4 exception is absent. -/
theorem claim_C3_witness :
    normPair 0 1 ∉
      ([((0 : ℤ), (3 : ℤ), (0 : ℝ) / (18.2223 : ℝ) * ((0 : ℝ) / (18.2223 : ℝ)) / (6 / 5),
        (0 : ℝ) + 0, Real.sqrt ((0 : ℝ) * 0) / 2)].map
          (fun e => normPair e.1 e.2.1)) :=
  claim_C3 (6 / 5) 2 [0, 3, 6, 9, 1]
    [(0 : ℝ) / (18.2223 : ℝ), (0 : ℝ) / (18.2223 : ℝ),
     (0 : ℝ) / (18.2223 : ℝ), (0 : ℝ) / (18.2223 : ℝ)]
    [((0 : ℝ), (0 : ℝ)), ((0 : ℝ), (0 : ℝ)), ((0 : ℝ), (0 : ℝ)),
     ((0 : ℝ), (0 : ℝ))]
    [2, 0, 0, 0] [4, 2] 4
    ([((0 : ℤ), (3 : ℤ), (0 : ℝ) / (18.2223 : ℝ) * ((0 : ℝ) / (18.2223 : ℝ)) / (6 / 5),
       (0 : ℝ) + 0, Real.sqrt ((0 : ℝ) * 0) / 2)],
     [((0 : ℤ), (1 : ℤ))])
    rfl ((0 : ℤ), (1 : ℤ)) (by simp)
